import Mathlib

/-!
Verification of the bookworm highlight/bookmark engine.

The definitions below embed the overlap-resolution loop of
`AnnotationMenu.onQuoteSelection` and the bookmark toggle loop of
`AnnotationMenu._add_bookmark` (src/bookworm/annotation/annotation_gui.py).
The storage layer (the `annotator` module's `Quoter` / `Bookmarker`
classes) is not part of the sources; its record semantics — deletion
removes the row, committed field assignment updates it in place, creation
inserts a new row, and `get_for_page` returns the page's highlights
ordered by `start_pos` — are modelled from the spec (sections 4.1 and 4.4).
-/

namespace Bookworm

/-- A stored Highlight record (a `Quote` row): id, `start_pos`, `end_pos`
and the captured `content` snapshot. -/
structure Quote where
  id : Nat
  start_pos : Int
  end_pos : Int
  content : String
  deriving Repr, DecidableEq

/-- `SelectionRange.__contains__` from the source: `self.start <= x <= self.end`. -/
def inSel (s e p : Int) : Prop := s ≤ p ∧ p ≤ e

instance (s e p : Int) : Decidable (inSel s e p) :=
  inferInstanceAs (Decidable (s ≤ p ∧ p ≤ e))

/-- The five possible results of resolving a candidate selection against
the page's stored highlights. -/
inductive QuoteOutcome where
  | Removed (id : Nat)
  | Rejected
  | ExtendedStart (id : Nat)
  | ExtendedEnd (id : Nat)
  | Created
  deriving Repr, DecidableEq

/-- The scan-and-mutate loop of `AnnotationMenu.onQuoteSelection`
(annotation_gui.py lines 241-264), applied to the page's highlight list.
Per stored quote `q` with range `[s, e]` it checks, in source order:
exact match (`s == x and e == y`, delete `q`), strict containment
(`s < x and e > y`, reject with no change), then — when `x` or `y` falls
inside `[s, e]` — extends the start (`x not in q_range`) or the end
(`y not in q_range`); when both endpoints fall inside but neither earlier
branch fired, or when the quote is untouched, the loop continues.  When
no quote matches, a new quote `[x, y]` holding the selected text is
created.  Store effects (delete / in-place update / insert) are modelled
from the spec's AnnotationStore contract.  Returns the outcome and the
resulting stored list. -/
def resolveQuotes (x y : Int) (nid : Nat) (sel : String) : List Quote → QuoteOutcome × List Quote
  | [] => (.Created, [⟨nid, x, y, sel⟩])
  | q :: rest =>
    if q.start_pos = x ∧ q.end_pos = y then
      (.Removed q.id, rest)
    else if q.start_pos < x ∧ q.end_pos > y then
      (.Rejected, q :: rest)
    else if inSel q.start_pos q.end_pos x ∨ inSel q.start_pos q.end_pos y then
      if ¬ inSel q.start_pos q.end_pos x then
        (.ExtendedStart q.id, { q with start_pos := x } :: rest)
      else if ¬ inSel q.start_pos q.end_pos y then
        (.ExtendedEnd q.id, { q with end_pos := y } :: rest)
      else
        let r := resolveQuotes x y nid sel rest
        (r.1, q :: r.2)
    else
      let r := resolveQuotes x y nid sel rest
      (r.1, q :: r.2)

/-- Two highlight records overlap when their closed `[start_pos, end_pos]`
intervals share at least one point. -/
def overlaps (a b : Quote) : Prop :=
  a.start_pos ≤ b.end_pos ∧ b.start_pos ≤ a.end_pos

instance (a b : Quote) : Decidable (overlaps a b) :=
  inferInstanceAs (Decidable (_ ∧ _))

/-- The page invariant of spec section 3: no two stored highlights on the
page have overlapping intervals. -/
def PairwiseNonOverlap (ss : List Quote) : Prop :=
  ss.Pairwise (fun a b => ¬ overlaps a b)

instance (ss : List Quote) : Decidable (PairwiseNonOverlap ss) :=
  inferInstanceAs (Decidable (ss.Pairwise _))

/-- Modelled from the spec: `Quoter.get_for_page` (absent `annotator`
module) returns the page's highlights ordered by `start_pos`
(spec section 4.1); a list satisfying this predicate is such a page
sequence. -/
def SortedByStart (ss : List Quote) : Prop :=
  ss.Pairwise (fun a b => a.start_pos ≤ b.start_pos)

instance (ss : List Quote) : Decidable (SortedByStart ss) :=
  inferInstanceAs (Decidable (ss.Pairwise _))

example :
    resolveQuotes 10 20 7 "t" [⟨1, 10, 20, "c"⟩] = (.Removed 1, []) := by decide

example :
    resolveQuotes 12 15 7 "t" [⟨1, 10, 20, "c"⟩] = (.Rejected, [⟨1, 10, 20, "c"⟩]) := by decide

example :
    resolveQuotes 15 25 7 "t" [⟨1, 10, 20, "c"⟩] = (.ExtendedEnd 1, [⟨1, 10, 25, "c"⟩]) := by
  decide

example :
    resolveQuotes 5 15 7 "t" [⟨1, 10, 20, "c"⟩] = (.ExtendedStart 1, [⟨1, 5, 20, "c"⟩]) := by
  decide

example :
    resolveQuotes 30 40 7 "t" [⟨1, 10, 20, "c"⟩] =
      (.Created, [⟨1, 10, 20, "c"⟩, ⟨7, 30, 40, "t"⟩]) := by decide

example :
    resolveQuotes 10 15 7 "t" [⟨1, 10, 20, "c"⟩] =
      (.Created, [⟨1, 10, 20, "c"⟩, ⟨7, 10, 15, "t"⟩]) := by decide

/-- A stored quote that matches none of the four per-quote branches is
skipped: the scan continues over the tail with the quote kept unchanged. -/
theorem resolveQuotes_skip (x y : Int) (nid : Nat) (sel : String) (q : Quote)
    (rest : List Quote)
    (h1 : ¬ (q.start_pos = x ∧ q.end_pos = y))
    (h2 : ¬ (q.start_pos < x ∧ q.end_pos > y))
    (h3 : ¬ inSel q.start_pos q.end_pos x)
    (h4 : ¬ inSel q.start_pos q.end_pos y) :
    resolveQuotes x y nid sel (q :: rest) =
      ((resolveQuotes x y nid sel rest).1, q :: (resolveQuotes x y nid sel rest).2) := by
  simp [resolveQuotes, h1, h2, h3, h4]

/-- A stored quote disjoint from the candidate `[x, y]` (with `x ≤ y`)
matches none of the four per-quote branches. -/
theorem disjoint_no_match (x y : Int) (q : Quote) (hxy : x ≤ y)
    (hd : q.end_pos < x ∨ y < q.start_pos) :
    ¬ (q.start_pos = x ∧ q.end_pos = y) ∧ ¬ (q.start_pos < x ∧ q.end_pos > y) ∧
      ¬ inSel q.start_pos q.end_pos x ∧ ¬ inSel q.start_pos q.end_pos y := by
  unfold inSel
  refine ⟨?_, ?_, ?_, ?_⟩ <;> omega

/-- A stored quote disjoint from the candidate `[x, y]` (with `x ≤ y`)
is skipped by the scan. -/
theorem resolveQuotes_skip_disjoint (x y : Int) (nid : Nat) (sel : String) (q : Quote)
    (rest : List Quote) (hxy : x ≤ y)
    (hd : q.end_pos < x ∨ y < q.start_pos) :
    resolveQuotes x y nid sel (q :: rest) =
      ((resolveQuotes x y nid sel rest).1, q :: (resolveQuotes x y nid sel rest).2) := by
  obtain ⟨h1, h2, h3, h4⟩ := disjoint_no_match x y q hxy hd
  exact resolveQuotes_skip x y nid sel q rest h1 h2 h3 h4

/-- Claim C2: when the page invariant holds and some stored highlight has
exactly the candidate's range `[x, y]`, resolution removes that highlight:
the outcome is `Removed`, the store is the original list with that one
record deleted (nothing created), and no stored highlight with range
`[x, y]` remains. -/
theorem resolve_exact_match_removes (x y : Int) (nid : Nat) (sel : String)
    (ss : List Quote) (q0 : Quote) (hmem : q0 ∈ ss)
    (hs : q0.start_pos = x) (he : q0.end_pos = y)
    (hval : ∀ q ∈ ss, q.start_pos ≤ q.end_pos)
    (hpw : PairwiseNonOverlap ss) :
    (resolveQuotes x y nid sel ss).1 = .Removed q0.id ∧
      (∃ l1 l2, ss = l1 ++ q0 :: l2 ∧ (resolveQuotes x y nid sel ss).2 = l1 ++ l2) ∧
      ∀ q ∈ (resolveQuotes x y nid sel ss).2, ¬ (q.start_pos = x ∧ q.end_pos = y) := by
  have hxy : x ≤ y := by
    have := hval q0 hmem; omega
  induction ss with
  | nil => cases hmem
  | cons p rest ih =>
    rw [PairwiseNonOverlap, List.pairwise_cons] at hpw
    obtain ⟨hp, hpw'⟩ := hpw
    rcases List.mem_cons.mp hmem with hp0 | hmem'
    · subst hp0
      have hres : resolveQuotes x y nid sel (q0 :: rest) = (.Removed q0.id, rest) := by
        simp [resolveQuotes, hs, he]
      refine ⟨by rw [hres], ⟨[], rest, by simp, by simp [hres]⟩, ?_⟩
      intro q hq hqe
      have hov := hp q (by rw [hres] at hq; exact hq)
      rw [overlaps] at hov
      omega
    · have hd : p.end_pos < x ∨ y < p.start_pos := by
        have hov := hp q0 hmem'
        rw [overlaps] at hov
        omega
      rw [resolveQuotes_skip_disjoint x y nid sel p rest hxy hd]
      obtain ⟨ho, ⟨l1, l2, hdec, hst⟩, hnone⟩ :=
        ih hmem' (fun q hq => hval q (List.mem_cons_of_mem p hq)) hpw'
      refine ⟨ho, ⟨p :: l1, l2, by rw [hdec]; rfl, by rw [hst]; rfl⟩, ?_⟩
      intro q hq
      rcases List.mem_cons.mp hq with rfl | hq'
      · obtain ⟨h1, _, _, _⟩ := disjoint_no_match x y q hxy hd
        exact h1
      · exact hnone q hq'

/-- Claim C2 witness: a page holding exactly `[10, 20]` and the candidate
`[10, 20]` yields `Removed` and an empty store. -/
theorem resolve_exact_match_removes_witness :
    (resolveQuotes 10 20 7 "t" [⟨1, 10, 20, "c"⟩]).1 = QuoteOutcome.Removed 1 ∧
      (∃ l1 l2, [(⟨1, 10, 20, "c"⟩ : Quote)] = l1 ++ (⟨1, 10, 20, "c"⟩ : Quote) :: l2 ∧
        (resolveQuotes 10 20 7 "t" [⟨1, 10, 20, "c"⟩]).2 = l1 ++ l2) ∧
      ∀ q ∈ (resolveQuotes 10 20 7 "t" [⟨1, 10, 20, "c"⟩]).2,
        ¬ (q.start_pos = 10 ∧ q.end_pos = 20) :=
  resolve_exact_match_removes 10 20 7 "t" [⟨1, 10, 20, "c"⟩] ⟨1, 10, 20, "c"⟩
    (by decide) rfl rfl (by decide) (by decide)

/-- Claim C3: when the page invariant holds and the candidate `[x, y]`
lies strictly inside some stored highlight (`s < x` and `e > y`),
resolution rejects it: the outcome is `Rejected` and the stored list is
completely unchanged. -/
theorem resolve_contained_rejected (x y : Int) (nid : Nat) (sel : String)
    (ss : List Quote) (q0 : Quote) (hmem : q0 ∈ ss)
    (hlt : q0.start_pos < x) (hgt : q0.end_pos > y) (hxy : x ≤ y)
    (hpw : PairwiseNonOverlap ss) :
    (resolveQuotes x y nid sel ss).1 = .Rejected ∧
      (resolveQuotes x y nid sel ss).2 = ss := by
  induction ss with
  | nil => cases hmem
  | cons p rest ih =>
    rw [PairwiseNonOverlap, List.pairwise_cons] at hpw
    obtain ⟨hp, hpw'⟩ := hpw
    rcases List.mem_cons.mp hmem with hp0 | hmem'
    · subst hp0
      have hb1 : ¬ (q0.start_pos = x ∧ q0.end_pos = y) := by omega
      have hres : resolveQuotes x y nid sel (q0 :: rest) = (.Rejected, q0 :: rest) := by
        simp [resolveQuotes, hb1, hlt, hgt]
      exact ⟨by rw [hres], by rw [hres]⟩
    · have hd : p.end_pos < x ∨ y < p.start_pos := by
        have hov := hp q0 hmem'
        rw [overlaps] at hov
        omega
      rw [resolveQuotes_skip_disjoint x y nid sel p rest hxy hd]
      obtain ⟨ho, hst⟩ := ih hmem' hpw'
      exact ⟨ho, by rw [hst]⟩

/-- Claim C3 witness: a page holding `[10, 20]` and the candidate
`[12, 15]` yields `Rejected` with the store unchanged. -/
theorem resolve_contained_rejected_witness :
    (resolveQuotes 12 15 7 "t" [⟨1, 10, 20, "c"⟩]).1 = QuoteOutcome.Rejected ∧
      (resolveQuotes 12 15 7 "t" [⟨1, 10, 20, "c"⟩]).2 = [⟨1, 10, 20, "c"⟩] :=
  resolve_contained_rejected 12 15 7 "t" [⟨1, 10, 20, "c"⟩] ⟨1, 10, 20, "c"⟩
    (by decide) (by decide) (by decide) (by decide) (by decide)

/-- Claim C4: when the page invariant holds, the page sequence is ordered
by `start_pos`, and the candidate starts inside a stored highlight
(`s ≤ x ≤ e`) while ending beyond it (`y > e`), resolution extends that
highlight's end: the outcome is `ExtendedEnd`, the stored record becomes
`[s, y]` with its `start_pos`, id and content snapshot unchanged, and no
new highlight is created. -/
theorem resolve_extend_end (x y : Int) (nid : Nat) (sel : String)
    (ss : List Quote) (q0 : Quote) (hmem : q0 ∈ ss)
    (h1 : q0.start_pos ≤ x) (h2 : x ≤ q0.end_pos) (h3 : y > q0.end_pos)
    (hpw : PairwiseNonOverlap ss) (hsort : SortedByStart ss) :
    (resolveQuotes x y nid sel ss).1 = .ExtendedEnd q0.id ∧
      ∃ l1 l2, ss = l1 ++ q0 :: l2 ∧
        (resolveQuotes x y nid sel ss).2 = l1 ++ { q0 with end_pos := y } :: l2 := by
  have hxy : x ≤ y := by omega
  induction ss with
  | nil => cases hmem
  | cons p rest ih =>
    rw [PairwiseNonOverlap, List.pairwise_cons] at hpw
    rw [SortedByStart, List.pairwise_cons] at hsort
    obtain ⟨hp, hpw'⟩ := hpw
    obtain ⟨hq, hsort'⟩ := hsort
    rcases List.mem_cons.mp hmem with hp0 | hmem'
    · subst hp0
      have hb1 : ¬ (q0.start_pos = x ∧ q0.end_pos = y) := by omega
      have hb2 : ¬ (q0.start_pos < x ∧ q0.end_pos > y) := by omega
      have hb3 : inSel q0.start_pos q0.end_pos x := ⟨h1, h2⟩
      have hb4 : ¬ inSel q0.start_pos q0.end_pos y := by unfold inSel; omega
      have hres : resolveQuotes x y nid sel (q0 :: rest) =
          (.ExtendedEnd q0.id, { q0 with end_pos := y } :: rest) := by
        simp [resolveQuotes, hb1, hb2, hb3, hb4]
      exact ⟨by rw [hres], [], rest, rfl, by simp [hres]⟩
    · have hps : p.start_pos ≤ q0.start_pos := hq q0 hmem'
      have hd : p.end_pos < x ∨ y < p.start_pos := by
        have hov := hp q0 hmem'
        rw [overlaps] at hov
        omega
      rw [resolveQuotes_skip_disjoint x y nid sel p rest hxy hd]
      obtain ⟨ho, ⟨l1, l2, hdec, hst⟩⟩ := ih hmem' hpw' hsort'
      exact ⟨ho, p :: l1, l2, by rw [hdec]; rfl, by rw [hst]; rfl⟩

/-- Claim C4 witness: a page holding `[10, 20]` and the candidate
`[15, 25]` yields `ExtendedEnd` and the stored range becomes `[10, 25]`
with its content snapshot intact. -/
theorem resolve_extend_end_witness :
    (resolveQuotes 15 25 7 "t" [⟨1, 10, 20, "c"⟩]).1 = QuoteOutcome.ExtendedEnd 1 ∧
      ∃ l1 l2, [(⟨1, 10, 20, "c"⟩ : Quote)] = l1 ++ (⟨1, 10, 20, "c"⟩ : Quote) :: l2 ∧
        (resolveQuotes 15 25 7 "t" [⟨1, 10, 20, "c"⟩]).2 =
          l1 ++ (⟨1, 10, 25, "c"⟩ : Quote) :: l2 :=
  resolve_extend_end 15 25 7 "t" [⟨1, 10, 20, "c"⟩] ⟨1, 10, 20, "c"⟩
    (by decide) (by decide) (by decide) (by decide) (by decide) (by decide)

/-- Claim C5 counterexample: on the sorted, non-overlapping page
`[0,5], [10,20]`, the candidate `[3, 15]` satisfies `s ≤ y ≤ e` and
`x < s` for the stored highlight `[10, 20]`, yet resolution does not
yield `ExtendedStart` for it: the scan reaches `[0, 5]` first (it
contains `x = 3`) and extends its end instead, leaving `[10, 20]`
untouched and producing `[0, 15]`. -/
theorem resolve_extend_start_cex :
    PairwiseNonOverlap [⟨1, 0, 5, "a"⟩, ⟨2, 10, 20, "b"⟩] ∧
      SortedByStart [⟨1, 0, 5, "a"⟩, ⟨2, 10, 20, "b"⟩] ∧
      (⟨2, 10, 20, "b"⟩ : Quote) ∈ [(⟨1, 0, 5, "a"⟩ : Quote), ⟨2, 10, 20, "b"⟩] ∧
      (10 : Int) ≤ 15 ∧ (15 : Int) ≤ 20 ∧ (3 : Int) < 10 ∧
      (resolveQuotes 3 15 7 "t" [⟨1, 0, 5, "a"⟩, ⟨2, 10, 20, "b"⟩]).1 ≠
        QuoteOutcome.ExtendedStart 2 ∧
      resolveQuotes 3 15 7 "t" [⟨1, 0, 5, "a"⟩, ⟨2, 10, 20, "b"⟩] =
        (QuoteOutcome.ExtendedEnd 1, [⟨1, 0, 15, "a"⟩, ⟨2, 10, 20, "b"⟩]) := by
  decide

/-- Claim C5 as amended: additionally assuming that no stored highlight
on the page contains the candidate's start `x`, when the page invariant
holds, the page sequence is ordered by `start_pos`, and the candidate
ends inside a stored highlight (`s ≤ y ≤ e`) while starting before it
(`x < s`), resolution extends that highlight's start: the outcome is
`ExtendedStart`, the stored record becomes `[x, e]` with its `end_pos`,
id and content snapshot unchanged, and no new highlight is created. -/
theorem resolve_extend_start_amended (x y : Int) (nid : Nat) (sel : String)
    (ss : List Quote) (q0 : Quote) (hmem : q0 ∈ ss)
    (h1 : q0.start_pos ≤ y) (h2 : y ≤ q0.end_pos) (h3 : x < q0.start_pos)
    (hnx : ∀ q ∈ ss, ¬ inSel q.start_pos q.end_pos x)
    (hpw : PairwiseNonOverlap ss) (hsort : SortedByStart ss) :
    (resolveQuotes x y nid sel ss).1 = .ExtendedStart q0.id ∧
      ∃ l1 l2, ss = l1 ++ q0 :: l2 ∧
        (resolveQuotes x y nid sel ss).2 = l1 ++ { q0 with start_pos := x } :: l2 := by
  induction ss with
  | nil => cases hmem
  | cons p rest ih =>
    rw [PairwiseNonOverlap, List.pairwise_cons] at hpw
    rw [SortedByStart, List.pairwise_cons] at hsort
    obtain ⟨hp, hpw'⟩ := hpw
    obtain ⟨hq, hsort'⟩ := hsort
    rcases List.mem_cons.mp hmem with hp0 | hmem'
    · subst hp0
      have hb1 : ¬ (q0.start_pos = x ∧ q0.end_pos = y) := by omega
      have hb2 : ¬ (q0.start_pos < x ∧ q0.end_pos > y) := by omega
      have hb3 : ¬ inSel q0.start_pos q0.end_pos x := by unfold inSel; omega
      have hb4 : inSel q0.start_pos q0.end_pos y := ⟨h1, h2⟩
      have hres : resolveQuotes x y nid sel (q0 :: rest) =
          (.ExtendedStart q0.id, { q0 with start_pos := x } :: rest) := by
        simp [resolveQuotes, hb1, hb2, hb3, hb4]
      exact ⟨by rw [hres], [], rest, rfl, by simp [hres]⟩
    · have hps : p.start_pos ≤ q0.start_pos := hq q0 hmem'
      have hpe : p.end_pos < q0.start_pos := by
        have hov := hp q0 hmem'
        rw [overlaps] at hov
        omega
      have hx := hnx p (List.mem_cons_self p rest)
      rw [inSel] at hx
      have hk1 : ¬ (p.start_pos = x ∧ p.end_pos = y) := by omega
      have hk2 : ¬ (p.start_pos < x ∧ p.end_pos > y) := by omega
      have hk3 : ¬ inSel p.start_pos p.end_pos x := by unfold inSel; omega
      have hk4 : ¬ inSel p.start_pos p.end_pos y := by unfold inSel; omega
      rw [resolveQuotes_skip x y nid sel p rest hk1 hk2 hk3 hk4]
      obtain ⟨ho, ⟨l1, l2, hdec, hst⟩⟩ :=
        ih hmem' (fun q hq' => hnx q (List.mem_cons_of_mem p hq')) hpw' hsort'
      exact ⟨ho, p :: l1, l2, by rw [hdec]; rfl, by rw [hst]; rfl⟩

/-- Claim C5 (amended) witness: a page holding `[10, 20]` and the
candidate `[5, 15]` — whose start lies in no stored range — yields
`ExtendedStart` and the stored range becomes `[5, 20]`. -/
theorem resolve_extend_start_amended_witness :
    (resolveQuotes 5 15 7 "t" [⟨1, 10, 20, "c"⟩]).1 = QuoteOutcome.ExtendedStart 1 ∧
      ∃ l1 l2, [(⟨1, 10, 20, "c"⟩ : Quote)] = l1 ++ (⟨1, 10, 20, "c"⟩ : Quote) :: l2 ∧
        (resolveQuotes 5 15 7 "t" [⟨1, 10, 20, "c"⟩]).2 =
          l1 ++ (⟨1, 5, 20, "c"⟩ : Quote) :: l2 :=
  resolve_extend_start_amended 5 15 7 "t" [⟨1, 10, 20, "c"⟩] ⟨1, 10, 20, "c"⟩
    (by decide) (by decide) (by decide) (by decide) (by decide) (by decide) (by decide)

/-- Claim C1 counterexample: the page `[0,5], [10,20]` satisfies the
pairwise non-overlap invariant and the candidate `[5, 15]` has `x ≤ y`,
yet resolving stores overlap: `[0, 5]` is extended to `[0, 15]`, which
overlaps the untouched `[10, 20]`. -/
theorem resolve_nonoverlap_cex :
    PairwiseNonOverlap [⟨1, 0, 5, "a"⟩, ⟨2, 10, 20, "b"⟩] ∧ (5 : Int) ≤ 15 ∧
      ¬ PairwiseNonOverlap (resolveQuotes 5 15 7 "t" [⟨1, 0, 5, "a"⟩, ⟨2, 10, 20, "b"⟩]).2 := by
  decide

/-- Claim C1 as amended: on a page satisfying the pairwise non-overlap
invariant, a candidate `[x, y]` with `x ≤ y` that is disjoint from every
stored range resolves to `Created`, the new range `[x, y]` is appended,
and the page's ranges remain pairwise non-overlapping; outcomes that
touch an existing range (extensions, or a fall-through creation when the
candidate shares an endpoint with a stored range) can store overlap. -/
theorem resolve_disjoint_preserves_nonoverlap (x y : Int) (nid : Nat) (sel : String)
    (ss : List Quote) (hxy : x ≤ y)
    (hpw : PairwiseNonOverlap ss)
    (hdisj : ∀ q ∈ ss, q.end_pos < x ∨ y < q.start_pos) :
    (resolveQuotes x y nid sel ss).1 = .Created ∧
      (resolveQuotes x y nid sel ss).2 = ss ++ [⟨nid, x, y, sel⟩] ∧
      PairwiseNonOverlap (resolveQuotes x y nid sel ss).2 := by
  induction ss with
  | nil =>
    refine ⟨rfl, rfl, ?_⟩
    simp [PairwiseNonOverlap, resolveQuotes]
  | cons p rest ih =>
    rw [PairwiseNonOverlap, List.pairwise_cons] at hpw
    obtain ⟨hp, hpw'⟩ := hpw
    have hdp := hdisj p (List.mem_cons_self p rest)
    rw [resolveQuotes_skip_disjoint x y nid sel p rest hxy hdp]
    obtain ⟨ho, hst, hpw2⟩ :=
      ih hpw' (fun q hq => hdisj q (List.mem_cons_of_mem p hq))
    refine ⟨ho, by rw [hst]; rfl, ?_⟩
    rw [PairwiseNonOverlap, List.pairwise_cons]
    refine ⟨?_, hpw2⟩
    intro b hb
    rw [hst] at hb
    rcases List.mem_append.mp hb with hb' | hb'
    · exact hp b hb'
    · rw [List.mem_singleton] at hb'
      subst hb'
      show ¬ (p.start_pos ≤ y ∧ x ≤ p.end_pos)
      omega

/-- Claim C1 (amended) witness: a page holding `[10, 20]` and the
disjoint candidate `[30, 40]` yields `Created` with the invariant
preserved. -/
theorem resolve_disjoint_preserves_nonoverlap_witness :
    (resolveQuotes 30 40 7 "t" [⟨1, 10, 20, "c"⟩]).1 = QuoteOutcome.Created ∧
      (resolveQuotes 30 40 7 "t" [⟨1, 10, 20, "c"⟩]).2 =
        [(⟨1, 10, 20, "c"⟩ : Quote)] ++ [⟨7, 30, 40, "t"⟩] ∧
      PairwiseNonOverlap (resolveQuotes 30 40 7 "t" [⟨1, 10, 20, "c"⟩]).2 :=
  resolve_disjoint_preserves_nonoverlap 30 40 7 "t" [⟨1, 10, 20, "c"⟩]
    (by decide) (by decide) (by decide)

/-- Claim C9: when the candidate shares one endpoint with a stored
highlight and its other endpoint lies strictly inside it (`x = s` with
`y < e`, or symmetrically `x > s` with `y = e`), no per-quote branch
fires for that highlight, the scan falls through, and a new highlight
`[x, y]` is created alongside the old one — the two stored intervals
overlap. -/
theorem resolve_fallthrough_stores_overlap :
    (resolveQuotes 10 15 7 "t" [⟨1, 10, 20, "c"⟩]).1 = QuoteOutcome.Created ∧
      (resolveQuotes 10 15 7 "t" [⟨1, 10, 20, "c"⟩]).2 =
        [⟨1, 10, 20, "c"⟩, ⟨7, 10, 15, "t"⟩] ∧
      overlaps ⟨1, 10, 20, "c"⟩ ⟨7, 10, 15, "t"⟩ ∧
      (resolveQuotes 12 20 8 "u" [⟨1, 10, 20, "c"⟩]).1 = QuoteOutcome.Created ∧
      (resolveQuotes 12 20 8 "u" [⟨1, 10, 20, "c"⟩]).2 =
        [⟨1, 10, 20, "c"⟩, ⟨8, 12, 20, "u"⟩] ∧
      overlaps ⟨1, 10, 20, "c"⟩ ⟨8, 12, 20, "u"⟩ := by
  decide

/-- The resolution algorithm exactly as the spec orders the per-range
cases: per stored range, exact match, then strict containment, then
extend-end (`s ≤ x ≤ e` and `y ∉ [s, e]`), then extend-start
(`s ≤ y ≤ e` and `x ∉ [s, e]`), short-circuiting on the first range that
matches; `Created` when no range matches. -/
def resolveQuotesSpec (x y : Int) (nid : Nat) (sel : String) : List Quote → QuoteOutcome × List Quote
  | [] => (.Created, [⟨nid, x, y, sel⟩])
  | q :: rest =>
    if q.start_pos = x ∧ q.end_pos = y then
      (.Removed q.id, rest)
    else if q.start_pos < x ∧ q.end_pos > y then
      (.Rejected, q :: rest)
    else if inSel q.start_pos q.end_pos x ∧ ¬ inSel q.start_pos q.end_pos y then
      (.ExtendedEnd q.id, { q with end_pos := y } :: rest)
    else if inSel q.start_pos q.end_pos y ∧ ¬ inSel q.start_pos q.end_pos x then
      (.ExtendedStart q.id, { q with start_pos := x } :: rest)
    else
      let r := resolveQuotesSpec x y nid sel rest
      (r.1, q :: r.2)

/-- Claim C6: for every candidate `[x, y]` with `x ≤ y` and every stored
sequence, the source's scan agrees everywhere with the spec's ordering of
the cases — first matching range wins, per range the cases are checked as
exact match, strict containment, extend-end, extend-start, and the
outcome is `Created` when no range matches; being a total function, it
returns exactly one outcome. -/
theorem resolve_follows_spec_case_order (x y : Int) (nid : Nat) (sel : String)
    (ss : List Quote) (_hxy : x ≤ y) :
    resolveQuotes x y nid sel ss = resolveQuotesSpec x y nid sel ss := by
  induction ss with
  | nil => rfl
  | cons q rest ih =>
    by_cases h1 : q.start_pos = x ∧ q.end_pos = y
    · simp [resolveQuotes, resolveQuotesSpec, h1]
    · by_cases h2 : q.start_pos < x ∧ q.end_pos > y
      · simp [resolveQuotes, resolveQuotesSpec, h1, h2]
      · by_cases h3 : inSel q.start_pos q.end_pos x
        · by_cases h4 : inSel q.start_pos q.end_pos y
          · simp [resolveQuotes, resolveQuotesSpec, h1, h2, h3, h4, ih]
          · simp [resolveQuotes, resolveQuotesSpec, h1, h2, h3, h4]
        · by_cases h4 : inSel q.start_pos q.end_pos y
          · simp [resolveQuotes, resolveQuotesSpec, h1, h2, h3, h4]
          · simp [resolveQuotes, resolveQuotesSpec, h1, h2, h3, h4, ih]

/-- Claim C6 witness: the two algorithms agree on the page `[10, 20]`
with candidate `[15, 25]`. -/
theorem resolve_follows_spec_case_order_witness :
    resolveQuotes 15 25 7 "t" [⟨1, 10, 20, "c"⟩] =
      resolveQuotesSpec 15 25 7 "t" [⟨1, 10, 20, "c"⟩] :=
  resolve_follows_spec_case_order 15 25 7 "t" [⟨1, 10, 20, "c"⟩] (by decide)

/-- A stored Bookmark record: id, `title` and the point `position`. -/
structure Bookmark where
  id : Nat
  title : String
  position : Int
  deriving Repr, DecidableEq

/-- The result signalled by the bookmark-add operation: either an
existing same-line bookmark was removed instead of creating, or a
bookmark was created. -/
inductive BookmarkOutcome where
  | Removed
  | Added
  deriving Repr, DecidableEq

/-- The toggle loop of `AnnotationMenu._add_bookmark` (annotation_gui.py
lines 174-190) on the current page's bookmark list.  `lineOf` is the
external position-to-line map (`PositionToXY`, supplied by the excluded
presentation layer).  Every stored bookmark on the caret's line is
deleted and counted; when at least one was deleted and the supplied name
is empty the operation stops, signalling removal; otherwise a bookmark
with the given title is created at the caret position.  Store effects
(delete / insert) are modelled from the spec's AnnotationStore
contract. -/
def addBookmark (lineOf : Int → Int) (name : String) (pos : Int) (nid : Nat)
    (store : List Bookmark) : BookmarkOutcome × List Bookmark :=
  let kept := store.filter (fun b => decide (lineOf b.position ≠ lineOf pos))
  let count := store.countP (fun b => decide (lineOf b.position = lineOf pos))
  if count ≠ 0 ∧ name = "" then
    (.Removed, kept)
  else
    (.Added, kept ++ [⟨nid, name, pos⟩])

/-- The number of stored bookmarks whose position maps to line `L`. -/
def countOnLine (lineOf : Int → Int) (L : Int) (store : List Bookmark) : Nat :=
  store.countP (fun b => decide (lineOf b.position = L))

/-- The bookmark invariant of spec section 3: at most one stored bookmark
per line. -/
def AtMostOnePerLine (lineOf : Int → Int) (store : List Bookmark) : Prop :=
  ∀ L, countOnLine lineOf L store ≤ 1

example :
    addBookmark (fun p => p / 10) "" 15 1 [] = (.Added, [⟨1, "", 15⟩]) := by decide

example :
    addBookmark (fun p => p / 10) "" 17 2 [⟨1, "", 15⟩] = (.Removed, []) := by decide

example :
    addBookmark (fun p => p / 10) "nm" 17 2 [⟨1, "", 15⟩] = (.Added, [⟨2, "nm", 17⟩]) := by
  decide

/-- Claim C7: unnamed bookmark creation toggles per line.  Starting from
a store with no bookmark on the caret's line, a first request creates
one; a second request at a position on the same line deletes it and
creates nothing; a third request at a position on the same line recreates
one. -/
theorem bookmark_toggle (lineOf : Int → Int) (st : List Bookmark)
    (p1 p2 p3 : Int) (n1 n2 n3 : Nat)
    (hL2 : lineOf p2 = lineOf p1) (hL3 : lineOf p3 = lineOf p1)
    (h0 : ∀ b ∈ st, lineOf b.position ≠ lineOf p1) :
    (addBookmark lineOf "" p1 n1 st).1 = .Added ∧
      (addBookmark lineOf "" p1 n1 st).2 = st ++ [⟨n1, "", p1⟩] ∧
      (addBookmark lineOf "" p2 n2 (st ++ [⟨n1, "", p1⟩])).1 = .Removed ∧
      (addBookmark lineOf "" p2 n2 (st ++ [⟨n1, "", p1⟩])).2 = st ∧
      (addBookmark lineOf "" p3 n3 st).1 = .Added ∧
      (addBookmark lineOf "" p3 n3 st).2 = st ++ [⟨n3, "", p3⟩] := by
  have hcnt : ∀ L, lineOf L = lineOf p1 →
      st.countP (fun b => decide (lineOf b.position = lineOf L)) = 0 := by
    intro L hL
    rw [List.countP_eq_zero]
    intro b hb
    simpa [hL] using h0 b hb
  have hkeep : ∀ L, lineOf L = lineOf p1 →
      st.filter (fun b => decide (lineOf b.position ≠ lineOf L)) = st := by
    intro L hL
    rw [List.filter_eq_self]
    intro b hb
    simpa [hL] using h0 b hb
  refine ⟨?_, ?_, ?_, ?_, ?_, ?_⟩
  · simp [addBookmark, hcnt p1 rfl]
  · simp [addBookmark, hcnt p1 rfl, hkeep p1 rfl]
    exact h0
  · simp [addBookmark, List.countP_append, hcnt p2 hL2, hL2]
  · simp [addBookmark, List.countP_append, List.filter_append, hcnt p2 hL2,
      hkeep p2 hL2, hL2]
    exact h0
  · simp [addBookmark, hcnt p3 hL3]
  · simp [addBookmark, hcnt p3 hL3, hkeep p3 hL3]
    intro b hb
    rw [hL3]
    exact h0 b hb

/-- Claim C7 witness: on an empty store with lines `position / 10`, three
successive unnamed requests at positions 15, 17, 12 (all on line 1)
create, remove, and recreate a bookmark. -/
theorem bookmark_toggle_witness :
    (addBookmark (fun p => p / 10) "" 15 1 []).1 = BookmarkOutcome.Added ∧
      (addBookmark (fun p => p / 10) "" 15 1 []).2 = [] ++ [⟨1, "", 15⟩] ∧
      (addBookmark (fun p => p / 10) "" 17 2 ([] ++ [⟨1, "", 15⟩])).1 =
        BookmarkOutcome.Removed ∧
      (addBookmark (fun p => p / 10) "" 17 2 ([] ++ [⟨1, "", 15⟩])).2 = [] ∧
      (addBookmark (fun p => p / 10) "" 12 3 []).1 = BookmarkOutcome.Added ∧
      (addBookmark (fun p => p / 10) "" 12 3 []).2 = [] ++ [⟨3, "", 12⟩] :=
  bookmark_toggle (fun p => p / 10) [] 15 17 12 1 2 3 (by decide) (by decide)
    (by intro b hb; cases hb)

/-- The count of bookmarks on line `L` never increases under filtering. -/
theorem countOnLine_filter_le (lineOf : Int → Int) (L : Int) (f : Bookmark → Bool)
    (st : List Bookmark) :
    countOnLine lineOf L (st.filter f) ≤ countOnLine lineOf L st := by
  induction st with
  | nil => simp [countOnLine]
  | cons b rest ih =>
    by_cases hf : f b
    · by_cases hl : lineOf b.position = L <;>
        simp [countOnLine, List.countP_cons, hf, hl] at ih ⊢ <;> omega
    · by_cases hl : lineOf b.position = L <;>
        simp [countOnLine, List.countP_cons, hf, hl] at ih ⊢ <;> omega

/-- Claim C8: the bookmark-add operation preserves the at-most-one-
bookmark-per-line invariant, for named and unnamed requests alike. -/
theorem bookmark_at_most_one_per_line (lineOf : Int → Int) (name : String)
    (pos : Int) (nid : Nat) (st : List Bookmark)
    (h : AtMostOnePerLine lineOf st) :
    AtMostOnePerLine lineOf (addBookmark lineOf name pos nid st).2 := by
  intro L
  have hkept : countOnLine lineOf L
      (st.filter (fun b => decide (lineOf b.position ≠ lineOf pos))) ≤ 1 :=
    le_trans (countOnLine_filter_le lineOf L _ st) (h L)
  rw [addBookmark]
  by_cases hc : st.countP (fun b => decide (lineOf b.position = lineOf pos)) ≠ 0 ∧ name = ""
  · simpa [hc] using hkept
  · simp only [hc, if_false]
    rw [countOnLine, List.countP_append]
    by_cases hL : lineOf pos = L
    · have hz : (st.filter (fun b => decide (lineOf b.position ≠ lineOf pos))).countP
          (fun b => decide (lineOf b.position = L)) = 0 := by
        rw [List.countP_eq_zero]
        intro b hb
        have := List.of_mem_filter hb
        simp only [decide_eq_true_eq] at this ⊢
        rw [← hL]
        exact this
      simp [hz, List.countP_cons, hL]
    · have h1 : ([(⟨nid, name, pos⟩ : Bookmark)]).countP
          (fun b => decide (lineOf b.position = L)) = 0 := by
        simp [List.countP_cons, hL]
      rw [h1]
      simpa [countOnLine] using hkept

/-- Claim C8 witness: adding a named bookmark at position 15 to a
single-bookmark store keeps at most one bookmark per line. -/
theorem bookmark_at_most_one_per_line_witness :
    AtMostOnePerLine (fun p => p) ((addBookmark (fun p => p) "nm" 15 2
      [⟨1, "", 25⟩]).2) :=
  bookmark_at_most_one_per_line (fun p => p) "nm" 15 2 [⟨1, "", 25⟩]
    (by
      intro L
      by_cases h : (25 : Int) = L <;> simp [countOnLine, List.countP_cons, h])

/-- Claim C10: a bookmark-add request with a non-empty name deletes every
stored bookmark on the caret's line and nevertheless creates the named
bookmark at the caret position; the delete-without-create short-circuit
never fires for a non-empty name. -/
theorem named_bookmark_replaces (lineOf : Int → Int) (name : String)
    (pos : Int) (nid : Nat) (st : List Bookmark)
    (hname : name ≠ "")
    (_hex : ∃ b ∈ st, lineOf b.position = lineOf pos) :
    (addBookmark lineOf name pos nid st).1 = .Added ∧
      (addBookmark lineOf name pos nid st).2 =
        st.filter (fun b => decide (lineOf b.position ≠ lineOf pos)) ++
          [⟨nid, name, pos⟩] ∧
      ∀ b ∈ (addBookmark lineOf name pos nid st).2,
        lineOf b.position = lineOf pos → b = ⟨nid, name, pos⟩ := by
  have hres : addBookmark lineOf name pos nid st =
      (.Added, st.filter (fun b => decide (lineOf b.position ≠ lineOf pos)) ++
        [⟨nid, name, pos⟩]) := by
    simp [addBookmark, hname]
  refine ⟨by rw [hres], by rw [hres], ?_⟩
  intro b hb hline
  rw [hres] at hb
  rcases List.mem_append.mp hb with hb' | hb'
  · have := List.of_mem_filter hb'
    simp only [decide_eq_true_eq] at this
    exact absurd hline this
  · simpa using hb'

/-- Claim C10 witness: a named request at position 17 on a line holding
bookmark 1 deletes it and creates the named bookmark. -/
theorem named_bookmark_replaces_witness :
    (addBookmark (fun p => p / 10) "nm" 17 2 [⟨1, "", 15⟩]).1 = BookmarkOutcome.Added ∧
      (addBookmark (fun p => p / 10) "nm" 17 2 [⟨1, "", 15⟩]).2 =
        ([(⟨1, "", 15⟩ : Bookmark)]).filter
          (fun b => decide ((fun p => p / 10) b.position ≠ (17 : Int) / 10)) ++
          [⟨2, "nm", 17⟩] ∧
      ∀ b ∈ (addBookmark (fun p => p / 10) "nm" 17 2 [⟨1, "", 15⟩]).2,
        (fun p => p / 10) b.position = (17 : Int) / 10 → b = ⟨2, "nm", 17⟩ :=
  named_bookmark_replaces (fun p => p / 10) "nm" 17 2 [⟨1, "", 15⟩]
    (by decide) ⟨⟨1, "", 15⟩, by decide, by decide⟩

end Bookworm
